import Mathlib

/-!
Verification development for the PyJSONQuery codec
(`src/jsonquery/__init__.py`).

The encoder `_build_element` / `_build_tree` turns a Python value into an
attributed XML tree; the decoder `_xml_to_json` turns a sequence of tree
nodes back into a Python value.  Both are shallowly embedded below:

* `PyVal` models the Python runtime values the codec manipulates
  (`None`, `int`, `float`, `str`, `list`, `dict`, objects with `__dict__`,
  objects with `__slots__`, and plain functions).  A Python `float` is
  represented by its `repr` string.  `bytes` and exotic containers are not
  modelled; no claim needs them.
* `Elem` models an `lxml` element: tag, ordered string attributes,
  optional text, ordered children.  `PNode` pairs an element with its
  parent element, which is all the decoder ever reads through
  `getparent()`.
* Both codec directions recurse through values that are not structural
  subterms for Lean (the slotted branch rebinds its loop variable via
  `getattr`), so each is written as a fuel-indexed function; the public
  wrappers supply fuel computed from a structural weight, which is proved
  (for the encoder) and checked on every concrete input (for the decoder)
  to be sufficient.  Running out of fuel in the encoder produces the same
  `conversionError` as the unreachable unsupported-type branch, so the
  theorem that no conversion error ever escapes certifies both that the
  branch is dead and that the supplied fuel suffices.
-/

/-- Python values, as the codec sees them.  A float is carried as its
`repr` string (Python guarantees `float(repr(x)) == x`). -/
inductive PyVal where
  | PNone : PyVal
  | PInt (n : Int) : PyVal
  | PFloat (rep : String) : PyVal
  | PStr (s : String) : PyVal
  | PList (xs : List PyVal) : PyVal
  | PDict (entries : List (String × PyVal)) : PyVal
  | PObj (typeName : String) (fields : List (String × PyVal)) : PyVal
  | PSlotted (typeName : String) (fields : List (String × PyVal)) : PyVal
  | PFunc (dict : List (String × PyVal)) : PyVal

/-- An `lxml` element: tag, attribute list in document order, optional
text, children in document order. -/
structure Elem where
  tag : String
  attrs : List (String × String)
  text : Option String
  children : List Elem

/-- A tree node together with its parent element.  The decoder reads the
parent only through `node.getparent().get("index", 0)`. -/
structure PNode where
  elem : Elem
  parent : Elem

/-- Python exceptions the codec can raise. -/
inductive PyError where
  | attributeError (typeName : String) (attr : String) : PyError
  | conversionError (typeName : String) (strForm : String) : PyError

/-- `type(value).__name__`. -/
def pyTypeName : PyVal → String
  | .PNone => "NoneType"
  | .PInt _ => "int"
  | .PFloat _ => "float"
  | .PStr _ => "str"
  | .PList _ => "list"
  | .PDict _ => "dict"
  | .PObj t _ => t
  | .PSlotted t _ => t
  | .PFunc _ => "function"

/-- `str(value)`.  Faithful on the atomic values the leaf branch prints;
composite values only feed the (unreachable) error message. -/
def pyStr : PyVal → String
  | .PNone => "None"
  | .PInt n => toString n
  | .PFloat r => r
  | .PStr s => s
  | .PList _ => "<list>"
  | .PDict _ => "<dict>"
  | .PObj t _ => "<" ++ t ++ ">"
  | .PSlotted t _ => "<" ++ t ++ ">"
  | .PFunc _ => "<function>"

/-- `hasattr(value, "__dict__")`: true for objects with instance
dictionaries and for plain functions (CPython functions carry `__dict__`). -/
def hasDunderDict : PyVal → Bool
  | .PObj _ _ => true
  | .PFunc _ => true
  | _ => false

/-- `_is_slotted`: `hasattr(value, "__slots__")`. -/
def hasSlots : PyVal → Bool
  | .PSlotted _ _ => true
  | _ => false

/-- `isinstance(value, collections.abc.Container)`. -/
def isContainerInstance : PyVal → Bool
  | .PStr _ => true
  | .PList _ => true
  | .PDict _ => true
  | _ => false

/-- `isinstance(value, str)`. -/
def isStrInstance : PyVal → Bool
  | .PStr _ => true
  | _ => false

/-- `isinstance(value, collections.abc.Mapping)`. -/
def isMappingInstance : PyVal → Bool
  | .PDict _ => true
  | _ => false

/-- `isinstance(value, typing.Callable)`. -/
def isCallableInstance : PyVal → Bool
  | .PFunc _ => true
  | _ => false

/-- `_is_container` from the source: a `Container` instance that is
neither `str` nor `bytes` (`bytes` values are not modelled). -/
def pyIsContainer (value : PyVal) : Bool :=
  !isStrInstance value && isContainerInstance value

/-- `_is_basic_value` from the source: no `__dict__`, not slotted, not a
container. -/
def pyIsBasicValue (value : PyVal) : Bool :=
  !hasDunderDict value && !hasSlots value && !pyIsContainer value

/-- `getattr(value, name)`, returning `none` where Python raises
`AttributeError`.  Field lookup on the three named-field shapes; scalar
values expose none of the field names the codec ever asks for. -/
def pyGetattr : PyVal → String → Option PyVal
  | .PObj _ fields, name => fields.lookup name
  | .PSlotted _ fields, name => fields.lookup name
  | .PFunc fields, name => fields.lookup name
  | _, _ => none

mutual
/-- Structural weight of a value, used to compute encoder fuel. -/
def pyWeight : PyVal → Nat
  | .PNone => 1
  | .PInt _ => 1
  | .PFloat _ => 1
  | .PStr _ => 1
  | .PList xs => 1 + pyListWeight xs
  | .PDict entries => 1 + pyPairsWeight entries
  | .PObj _ fields => 1 + pyPairsWeight fields
  | .PSlotted _ fields => 1 + pyPairsWeight fields
  | .PFunc fields => 1 + pyPairsWeight fields

def pyListWeight : List PyVal → Nat
  | [] => 0
  | x :: rest => 1 + pyWeight x + pyListWeight rest

def pyPairsWeight : List (String × PyVal) → Nat
  | [] => 0
  | (_, v) :: rest => 1 + pyWeight v + pyPairsWeight rest
end

/-- `element.set(key, value)` on the attribute list: overwrite in place
if the key exists (lxml keeps the attribute's position), else append. -/
def setPairs : List (String × String) → String → String → List (String × String)
  | [], k, v => [(k, v)]
  | (k0, v0) :: rest, k, v =>
    if k0 = k then (k, v) :: rest else (k0, v0) :: setPairs rest k v

/-- `element.set(key, value)`. -/
def Elem.set (e : Elem) (k v : String) : Elem :=
  { e with attrs := setPairs e.attrs k v }

/-- `element.get(key)` (no default): first matching attribute. -/
def Elem.get (e : Elem) (k : String) : Option String :=
  e.attrs.lookup k

/-- `found_keys[t]` after the mapping branch's first loop: occurrences of
tag `t` among all collected nodes. -/
def foundKeyCount (found_nodes : List Elem) (t : String) : Nat :=
  found_nodes.countP (fun n => n.tag == t)

/-- The mapping branch's second loop (source lines 151–157): walk the
collected nodes with a per-tag counter `key_indices`; a node whose tag was
counted more than once gets `list_member="True"` and `index` set from the
counter, any other node is appended untouched. -/
def markPass (counts : String → Nat) : List Elem → (String → Nat) → List Elem
  | [], _ => []
  | n :: rest, key_indices =>
    if counts n.tag > 1 then
      (n.set "list_member" "True").set "index" (toString (key_indices n.tag)) ::
        markPass counts rest (fun t => if t = n.tag then key_indices t + 1 else key_indices t)
    else
      n :: markPass counts rest key_indices

/-- The recursion tasks of `_build_element`: the function body itself, the
mapping branch's loop over `value.items()`, the container branch's loop
with its running `list_index`, the `__dict__` branch's loop, and the
slotted branch's loop.  The slotted loop carries the rebound loop
variable `value` (source line 187 overwrites it with each `getattr`
result). -/
inductive EncTask where
  | one (key : String) (value : PyVal) : EncTask
  | pairs (entries : List (String × PyVal)) : EncTask
  | seq (key : String) (xs : List PyVal) (list_index : Nat) : EncTask
  | objPairs (entries : List (String × PyVal)) : EncTask
  | slots (names : List String) (value : PyVal) : EncTask

/-- `_build_element`, fuel-indexed.  Fuel exhaustion returns the same
`conversionError` as the unsupported-type branch; `build_element_no_conversion_error`
proves that neither is ever produced at the fuel the wrapper supplies. -/
def encAux : Nat → EncTask → Except PyError (List Elem)
  | 0, _ => .error (.conversionError "fuel" "fuel")
  | Nat.succ f, .one key value =>
    if pyIsBasicValue value then
      .ok [{ tag := key,
             attrs := [("datatype", pyTypeName value), ("list_member", "False")],
             text := some (pyStr value), children := [] }]
    else if isMappingInstance value then
      match value with
      | .PDict entries =>
        match encAux f (.pairs entries) with
        | .error e => .error e
        | .ok found_nodes =>
          .ok [{ tag := key,
                 attrs := [("datatype", pyTypeName value), ("list_member", "False")],
                 text := none,
                 children := markPass (foundKeyCount found_nodes) found_nodes (fun _ => 0) }]
      | _ => .error (.conversionError (pyTypeName value) (pyStr value))
    else if pyIsContainer value then
      match value with
      | .PList xs => encAux f (.seq key xs 0)
      | _ => .error (.conversionError (pyTypeName value) (pyStr value))
    else if hasDunderDict value then
      match value with
      | .PObj tn fields =>
        match encAux f (.objPairs fields) with
        | .error e => .error e
        | .ok nodes =>
          .ok [{ tag := key,
                 attrs := [("datatype", tn), ("list_member", "False")],
                 text := none, children := nodes }]
      | .PFunc fields =>
        match encAux f (.objPairs fields) with
        | .error e => .error e
        | .ok nodes =>
          .ok [{ tag := key,
                 attrs := [("datatype", "function"), ("list_member", "False")],
                 text := none, children := nodes }]
      | _ => .error (.conversionError (pyTypeName value) (pyStr value))
    else if hasSlots value then
      match value with
      | .PSlotted tn fields =>
        match encAux f (.slots (fields.map Prod.fst) value) with
        | .error e => .error e
        | .ok nodes =>
          .ok [{ tag := key,
                 attrs := [("datatype", tn), ("list_member", "False")],
                 text := none, children := nodes }]
      | _ => .error (.conversionError (pyTypeName value) (pyStr value))
    else
      .error (.conversionError (pyTypeName value) (pyStr value))
  | Nat.succ f, .pairs entries =>
    match entries with
    | [] => .ok []
    | (sub_key, sub_value) :: rest =>
      match encAux f (.one sub_key sub_value) with
      | .error e => .error e
      | .ok sub_elements =>
        match encAux f (.pairs rest) with
        | .error e => .error e
        | .ok more => .ok (sub_elements ++ more)
  | Nat.succ f, .seq key xs list_index =>
    match xs with
    | [] => .ok []
    | sub_value :: rest =>
      match encAux f (.one key sub_value) with
      | .error e => .error e
      | .ok sub_elements =>
        match encAux f (.seq key rest (list_index + 1)) with
        | .error e => .error e
        | .ok more =>
          .ok (sub_elements.map
                (fun e => (e.set "list_member" "True").set "index" (toString list_index))
              ++ more)
  | Nat.succ f, .objPairs entries =>
    match entries with
    | [] => .ok []
    | (sub_key, sub_value) :: rest =>
      if isCallableInstance sub_value then
        encAux f (.objPairs rest)
      else
        match encAux f (.one sub_key sub_value) with
        | .error e => .error e
        | .ok nodes =>
          match encAux f (.objPairs rest) with
          | .error e => .error e
          | .ok more => .ok (nodes ++ more)
  | Nat.succ f, .slots names value =>
    match names with
    | [] => .ok []
    | slotted_variable :: rest =>
      match pyGetattr value slotted_variable with
      | none => .error (.attributeError (pyTypeName value) slotted_variable)
      | some rebound =>
        if isCallableInstance rebound then
          encAux f (.slots rest rebound)
        else
          match encAux f (.one slotted_variable rebound) with
          | .error e => .error e
          | .ok nodes =>
            match encAux f (.slots rest rebound) with
            | .error e => .error e
            | .ok more => .ok (nodes ++ more)

/-- Fuel needed below a task, with strict decrease along every recursive
step of `encAux`. -/
def taskWeight : EncTask → Nat
  | .one _ value => 4 * pyWeight value
  | .pairs entries => 4 * pyPairsWeight entries
  | .seq _ xs _ => 4 * pyListWeight xs
  | .objPairs entries => 4 * pyPairsWeight entries
  | .slots _ value => 4 * pyWeight value - 1

/-- `_build_element(key, value)`. -/
def build_element (key : String) (value : PyVal) : Except PyError (List Elem) :=
  encAux (4 * pyWeight value + 1) (.one key value)

/-- `_build_tree`'s loop: concatenation of `_build_element(k, v)` over the
document's entries, in order. -/
def buildTreeChildren : List (String × PyVal) → Except PyError (List Elem)
  | [] => .ok []
  | (key, value) :: rest =>
    match build_element key value with
    | .error e => .error e
    | .ok nodes =>
      match buildTreeChildren rest with
      | .error e => .error e
      | .ok more => .ok (nodes ++ more)

/-- `_build_tree(data)`: a synthetic `root` element whose children are all
nodes produced for the document's entries. -/
def build_tree (data : List (String × PyVal)) : Except PyError Elem :=
  match buildTreeChildren data with
  | .error e => .error e
  | .ok nodes => .ok { tag := "root", attrs := [], text := none, children := nodes }

/-- Whether a character occurs in a character list. -/
def charsContains (c : Char) : List Char → Bool
  | [] => false
  | d :: rest => d = c || charsContains c rest

/-- Decimal digits to a number, most significant first. -/
def digitsToNat (acc : Nat) : List Char → Nat
  | [] => acc
  | d :: rest => digitsToNat (acc * 10 + (d.toNat - '0'.toNat)) rest

/-- `int(s)` on the decimal strings this codec writes into `index`
attributes and leaf texts; total (a malformed string, on which Python
raises, yields a junk number instead and never occurs on codec output). -/
def pyIntOfString (s : String) : Int :=
  match s.data with
  | '-' :: rest => -(digitsToNat 0 rest : Int)
  | ds => (digitsToNat 0 ds : Int)

/-- `float(s)` on the numeric literals this codec produces: an integer
literal gains a trailing `.0` exactly as Python prints it back, any
literal already carrying a fractional or exponent part is its own repr. -/
def pyFloatOfString (s : String) : PyVal :=
  if charsContains '.' s.data || charsContains 'e' s.data || charsContains 'E' s.data then
    .PFloat s
  else
    .PFloat (s ++ ".0")

/-- `float(element.text)`; a composite node's absent text, on which Python
would raise, is modelled as `None` and never reached on encoder output. -/
def pyFloatOfText : Option String → PyVal
  | some s => pyFloatOfString s
  | none => .PNone

/-- `int(element.text)`, same conventions as `pyFloatOfText`. -/
def pyIntOfText : Option String → PyVal
  | some s => .PInt (pyIntOfString s)
  | none => .PNone

/-- `element.text` as a decoded value: the string, or Python `None` on a
node with no text. -/
def textValue : Option String → PyVal
  | some s => .PStr s
  | none => .PNone

/-- A decoder grouping entry: `actual_values[tag]` is a single node until
the tag recurs, then a list. -/
inductive Grouped where
  | single (n : PNode) : Grouped
  | group (ns : List PNode) : Grouped

/-- The nodes held by a grouping entry. -/
def Grouped.members : Grouped → List PNode
  | .single n => [n]
  | .group ns => ns

/-- One step of the decoder's first loop: record `node` under its tag,
turning the entry into a list when the tag recurs (appending at the end),
keeping first-encounter key order like a Python dict. -/
def addNode : List (String × Grouped) → PNode → List (String × Grouped)
  | [], n => [(n.elem.tag, .single n)]
  | (t, g) :: rest, n =>
    if t = n.elem.tag then
      match g with
      | .single m => (t, .group [m, n]) :: rest
      | .group ms => (t, .group (ms ++ [n])) :: rest
    else
      (t, g) :: addNode rest n

/-- The decoder's first loop: `actual_values` after grouping all incoming
nodes by tag. -/
def groupByTag (nodes : List PNode) : List (String × Grouped) :=
  nodes.foldl addNode []

/-- `found_node.set("list_member", str(True))` in the decoder's second
loop. -/
def markNode (n : PNode) : PNode :=
  { n with elem := n.elem.set "list_member" "True" }

/-- The decoder's sort key: `int(n.getparent().get("index", 0))` — the
`index` attribute of the node's parent, defaulting to 0. -/
def parentIndexKey (n : PNode) : Int :=
  match n.parent.get "index" with
  | none => 0
  | some s => pyIntOfString s

/-- Order on nodes by parent index key. -/
def pKeyLE (a b : PNode) : Prop :=
  parentIndexKey a ≤ parentIndexKey b

instance : DecidableRel pKeyLE :=
  fun a b => inferInstanceAs (Decidable (parentIndexKey a ≤ parentIndexKey b))

instance : IsTotal PNode pKeyLE :=
  ⟨fun a b => le_total (parentIndexKey a) (parentIndexKey b)⟩

instance : IsTrans PNode pKeyLE :=
  ⟨fun _ _ _ hab hbc => le_trans hab hbc⟩

/-- The decoder's second loop for one repeated-tag group: mark every node
`list_member="True"`, then `sorted(..., key=parent index)`.  Python's
`sorted` is a stable ascending sort, and a stable sort's output is
uniquely determined, so insertion sort by the same key models it
exactly. -/
def markAndSort (ns : List PNode) : List PNode :=
  List.insertionSort pKeyLE (ns.map markNode)

/-- Dict assignment `child_results[tag] = v` on an ordered association
list: overwrite in place or append. -/
def setValuePairs : List (String × PyVal) → String → PyVal → List (String × PyVal)
  | [], k, v => [(k, v)]
  | (k0, v0) :: rest, k, v =>
    if k0 = k then (k, v) :: rest else (k0, v0) :: setValuePairs rest k v

/-- Decoding one member of a repeated-tag group (decoder third loop, list
case): recurse on its children if it has any, else dispatch on the node's
`datatype` — where the source parses the `int` case with `float(...)` as
well. -/
def decodeMemberWith (recd : List PNode → PyVal) (m : PNode) : PyVal :=
  let datatype := m.elem.get "datatype"
  let children := m.elem.children
  if children.length > 0 then
    recd (children.map (fun c => { elem := c, parent := m.elem }))
  else if datatype = some "float" then
    pyFloatOfText m.elem.text
  else if datatype = some "int" then
    pyFloatOfText m.elem.text
  else
    textValue m.elem.text

/-- Decoding a single-node tag (decoder third loop, single case).  The
source reads the `database` attribute — not `datatype` — so the fallback
`"str"` is always taken on encoder output; the `dict` branch keys every
nested child's decode under the *outer* tag, overwriting repeatedly. -/
def decodeSingleWith (recd : List PNode → PyVal) (tag : String) (n : PNode) : PyVal :=
  let datatype := (n.elem.get "database").getD "str"
  if datatype = "dict" then
    .PDict (n.elem.children.foldl
      (fun child_results c => setValuePairs child_results tag (recd [{ elem := c, parent := n.elem }]))
      [])
  else if datatype = "float" then
    pyFloatOfText n.elem.text
  else if datatype = "int" then
    pyIntOfText n.elem.text
  else
    textValue n.elem.text

/-- The decoder's third loop: assemble `results` in `actual_values` order,
repeated tags via the marked-and-sorted group, single tags via the
single-node dispatch. -/
def assembleWith (recd : List PNode → PyVal) (nodes : List PNode) : List (String × PyVal) :=
  (groupByTag nodes).map (fun tg =>
    match tg.2 with
    | .group ns => (tg.1, PyVal.PList ((markAndSort ns).map (decodeMemberWith recd)))
    | .single n => (tg.1, decodeSingleWith recd tg.1 n))

mutual
/-- Structural weight of an element. -/
def elemWeight : Elem → Nat
  | { children := cs, .. } => 1 + elemsWeight cs

def elemsWeight : List Elem → Nat
  | [] => 0
  | c :: rest => elemWeight c + elemsWeight rest
end

/-- Total weight of a decoder input, used to compute decoder fuel. -/
def nodesWeight (nodes : List PNode) : Nat :=
  elemsWeight (nodes.map (fun n => n.elem))

/-- `_xml_to_json`, fuel-indexed: assemble the per-tag mapping, then the
collapse step — a one-key mapping unwraps to its sole value; otherwise the
mapping itself is returned (the numpy array fallback of the source is the
behaviour with numpy absent, i.e. the identity).  Recursion always
descends into children, whose total weight is strictly smaller, so the
wrapper's fuel is never exhausted; the fuel-out value is arbitrary. -/
def decAux : Nat → List PNode → PyVal
  | 0, _ => .PNone
  | Nat.succ f, nodes =>
    match assembleWith (decAux f) nodes with
    | [(_, v)] => v
    | results => .PDict results

/-- `_xml_to_json(nodes)`. -/
def xml_to_json (nodes : List PNode) : PyVal :=
  decAux (nodesWeight nodes + 1) nodes

/-- The decoder's assembled per-tag mapping (`results` just before the
collapse step), at the same fuel the wrapper uses. -/
def assembleResults (nodes : List PNode) : List (String × PyVal) :=
  assembleWith (decAux (nodesWeight nodes)) nodes

/-- The children of an element as decoder input nodes (their
`getparent()` is that element). -/
def childNodes (root : Elem) : List PNode :=
  root.children.map (fun c => { elem := c, parent := root })

/-- `_xml_to_json(_build_tree(data).getchildren())`: the spec's round-trip
pipeline `decode(toTree(m).children)`. -/
def decodeTreeChildren (data : List (String × PyVal)) : Except PyError PyVal :=
  match build_tree data with
  | .error e => .error e
  | .ok root => .ok (xml_to_json (childNodes root))

/-- Whether an encoder result is anything other than the unsupported-type
`ValueError` (`ConversionError`).  The fuel-out fallback of `encAux` uses
the same error, so proving this `true` also certifies the wrapper's fuel. -/
def notConversionError : Except PyError (List Elem) → Bool
  | .error (.conversionError _ _) => false
  | _ => true

/-- The mapping branch's first loop on its own: all nodes collected by
recursively encoding the mapping's entries, in production order. -/
def encodeMappingEntries (entries : List (String × PyVal)) : Except PyError (List Elem) :=
  encAux (4 * pyPairsWeight entries + 1) (.pairs entries)

/-- Occurrences of tag `t` strictly before position `i`: the number of
same-tag nodes already walked when the marking loop reaches `ns[i]`. -/
def countTagBefore (ns : List Elem) (i : Nat) (t : String) : Nat :=
  (ns.take i).countP (fun n => n.tag == t)

/-- Placeholder element for `List.getD`. -/
def eNil : Elem :=
  { tag := "", attrs := [], text := none, children := [] }

/-- The container branch written element-wise: each element at position
`i` encoded by `_build_element(key, element)` itself, every produced node
overwritten with `list_member="True"` and `index=i`, appended in element
order.  `build_element_seq_elementwise` proves the container branch equal
to this. -/
def seqSpec (key : String) : List PyVal → Nat → Except PyError (List Elem)
  | [], _ => .ok []
  | x :: rest, i =>
    match build_element key x with
    | .error e => .error e
    | .ok es =>
      match seqSpec key rest (i + 1) with
      | .error e => .error e
      | .ok more =>
        .ok (es.map (fun e => (e.set "list_member" "True").set "index" (toString i)) ++ more)

/-- The tag constraint `encAux` guarantees for a task: the function body
and the container loop only ever emit nodes carrying the requested key as
tag. -/
def taskTagOK (t : EncTask) (e : Elem) : Prop :=
  match t with
  | .one key _ => e.tag = key
  | .seq key _ _ => e.tag = key
  | _ => True

/-- Concrete fixture: the three nodes `_build_tree` produces for
`{"a": [10, 20, 30]}`, and their root. -/
def tA0 : Elem :=
  { tag := "a", attrs := [("datatype", "int"), ("list_member", "True"), ("index", "0")],
    text := some "10", children := [] }

/-- Second node of the `{"a": [10, 20, 30]}` fixture. -/
def tA1 : Elem :=
  { tag := "a", attrs := [("datatype", "int"), ("list_member", "True"), ("index", "1")],
    text := some "20", children := [] }

/-- Third node of the `{"a": [10, 20, 30]}` fixture. -/
def tA2 : Elem :=
  { tag := "a", attrs := [("datatype", "int"), ("list_member", "True"), ("index", "2")],
    text := some "30", children := [] }

/-- Root of the `{"a": [10, 20, 30]}` fixture. -/
def tRoot : Elem :=
  { tag := "root", attrs := [], text := none, children := [tA0, tA1, tA2] }

/-- Concrete fixture: the node `_build_tree` produces for
`{"only": {"x": 1}}`. -/
def onlyElem : Elem :=
  { tag := "only", attrs := [("datatype", "dict"), ("list_member", "False")],
    text := none,
    children := [{ tag := "x", attrs := [("datatype", "int"), ("list_member", "False")],
                   text := some "1", children := [] }] }

/-- Root of the `{"only": {"x": 1}}` fixture. -/
def onlyRoot : Elem :=
  { tag := "root", attrs := [], text := none, children := [onlyElem] }

/-- Concrete fixture: the node `_build_element` produces for the mapping
`{"a": [5]}` — its sole child has tag `a` occurring once yet carries
`list_member="True"` and `index="0"` from the sequence branch. -/
def singletonListElem : Elem :=
  { tag := "m", attrs := [("datatype", "dict"), ("list_member", "False")],
    text := none,
    children := [{ tag := "a", attrs := [("datatype", "int"), ("list_member", "True"), ("index", "0")],
                   text := some "5", children := [] }] }

theorem lookup_setPairs_same (l : List (String × String)) (k v : String) :
    (setPairs l k v).lookup k = some v := by
  induction l with
  | nil => simp [setPairs, List.lookup]
  | cons p rest ih =>
    match p with
    | (k0, v0) =>
      by_cases h : k0 = k
      · simp [setPairs, h, List.lookup]
      · simp only [setPairs, if_neg h, List.lookup]
        have : (k == k0) = false := by
          simp [beq_iff_eq]
          exact fun hk => h hk.symm
        simp [this, ih]

theorem lookup_setPairs_other (l : List (String × String)) (k v k' : String) (hne : k' ≠ k) :
    (setPairs l k v).lookup k' = l.lookup k' := by
  induction l with
  | nil =>
    have hb : (k' == k) = false := by simp [beq_iff_eq]; exact hne
    simp [setPairs, List.lookup, hb]
  | cons p rest ih =>
    match p with
    | (k0, v0) =>
      by_cases h : k0 = k
      · subst h
        simp only [setPairs, if_pos rfl, List.lookup]
        have hne' : (k' == k0) = false := by
          simp [beq_iff_eq]
          exact hne
        simp [hne']
      · simp only [setPairs, if_neg h, List.lookup]
        by_cases hk : k' = k0
        · simp [hk]
        · have hk' : (k' == k0) = false := by simp [beq_iff_eq]; exact hk
          simp [hk', ih]

theorem Elem.get_set_same (e : Elem) (k v : String) :
    (e.set k v).get k = some v :=
  lookup_setPairs_same e.attrs k v

theorem Elem.get_set_other (e : Elem) (k v k' : String) (hne : k' ≠ k) :
    (e.set k v).get k' = e.get k' :=
  lookup_setPairs_other e.attrs k v k' hne

theorem Elem.set_tag (e : Elem) (k v : String) : (e.set k v).tag = e.tag := rfl

theorem Elem.set_children (e : Elem) (k v : String) : (e.set k v).children = e.children := rfl

theorem Elem.set_text (e : Elem) (k v : String) : (e.set k v).text = e.text := rfl

theorem pyWeight_pos (v : PyVal) : 1 ≤ pyWeight v := by
  cases v <;> simp [pyWeight]

theorem lookup_pyWeight {fields : List (String × PyVal)} {name : String} {v : PyVal}
    (h : fields.lookup name = some v) : pyWeight v < pyPairsWeight fields := by
  induction fields with
  | nil => simp [List.lookup] at h
  | cons p rest ih =>
    match p with
    | (k, w) =>
      rw [List.lookup] at h
      by_cases hk : (name == k) = true
      · rw [hk] at h
        injection h with h
        subst h
        simp [pyPairsWeight]
        omega
      · rw [Bool.not_eq_true] at hk
        rw [hk] at h
        have := ih h
        simp [pyPairsWeight]
        omega

theorem pyGetattr_weight {v : PyVal} {name : String} {w : PyVal}
    (h : pyGetattr v name = some w) : pyWeight w < pyWeight v := by
  cases v <;> simp [pyGetattr] at h
  case PObj t fields =>
    have := lookup_pyWeight h
    simp [pyWeight]
    omega
  case PSlotted t fields =>
    have := lookup_pyWeight h
    simp [pyWeight]
    omega
  case PFunc fields =>
    have := lookup_pyWeight h
    simp [pyWeight]
    omega

theorem encAux_one_none (f : Nat) (key : String) :
    encAux (f + 1) (.one key .PNone)
      = .ok [{ tag := key, attrs := [("datatype", "NoneType"), ("list_member", "False")],
               text := some "None", children := [] }] := rfl

theorem encAux_one_int (f : Nat) (key : String) (n : Int) :
    encAux (f + 1) (.one key (.PInt n))
      = .ok [{ tag := key, attrs := [("datatype", "int"), ("list_member", "False")],
               text := some (toString n), children := [] }] := rfl

theorem encAux_one_float (f : Nat) (key : String) (r : String) :
    encAux (f + 1) (.one key (.PFloat r))
      = .ok [{ tag := key, attrs := [("datatype", "float"), ("list_member", "False")],
               text := some r, children := [] }] := rfl

theorem encAux_one_str (f : Nat) (key : String) (s : String) :
    encAux (f + 1) (.one key (.PStr s))
      = .ok [{ tag := key, attrs := [("datatype", "str"), ("list_member", "False")],
               text := some s, children := [] }] := rfl

theorem encAux_one_dict (f : Nat) (key : String) (entries : List (String × PyVal)) :
    encAux (f + 1) (.one key (.PDict entries))
      = match encAux f (.pairs entries) with
        | .error e => .error e
        | .ok found_nodes =>
          .ok [{ tag := key, attrs := [("datatype", "dict"), ("list_member", "False")],
                 text := none,
                 children := markPass (foundKeyCount found_nodes) found_nodes (fun _ => 0) }] := rfl

theorem encAux_one_list (f : Nat) (key : String) (xs : List PyVal) :
    encAux (f + 1) (.one key (.PList xs)) = encAux f (.seq key xs 0) := rfl

theorem encAux_one_obj (f : Nat) (key : String) (tn : String) (fields : List (String × PyVal)) :
    encAux (f + 1) (.one key (.PObj tn fields))
      = match encAux f (.objPairs fields) with
        | .error e => .error e
        | .ok nodes =>
          .ok [{ tag := key, attrs := [("datatype", tn), ("list_member", "False")],
                 text := none, children := nodes }] := rfl

theorem encAux_one_func (f : Nat) (key : String) (fields : List (String × PyVal)) :
    encAux (f + 1) (.one key (.PFunc fields))
      = match encAux f (.objPairs fields) with
        | .error e => .error e
        | .ok nodes =>
          .ok [{ tag := key, attrs := [("datatype", "function"), ("list_member", "False")],
                 text := none, children := nodes }] := rfl

theorem encAux_one_slotted (f : Nat) (key : String) (tn : String)
    (fields : List (String × PyVal)) :
    encAux (f + 1) (.one key (.PSlotted tn fields))
      = match encAux f (.slots (fields.map Prod.fst) (.PSlotted tn fields)) with
        | .error e => .error e
        | .ok nodes =>
          .ok [{ tag := key, attrs := [("datatype", tn), ("list_member", "False")],
                 text := none, children := nodes }] := rfl

theorem encAux_pairs_nil (f : Nat) : encAux (f + 1) (.pairs []) = .ok [] := rfl

theorem encAux_pairs_cons (f : Nat) (sub_key : String) (sub_value : PyVal)
    (rest : List (String × PyVal)) :
    encAux (f + 1) (.pairs ((sub_key, sub_value) :: rest))
      = match encAux f (.one sub_key sub_value) with
        | .error e => .error e
        | .ok sub_elements =>
          match encAux f (.pairs rest) with
          | .error e => .error e
          | .ok more => .ok (sub_elements ++ more) := rfl

theorem encAux_seq_nil (f : Nat) (key : String) (i : Nat) :
    encAux (f + 1) (.seq key [] i) = .ok [] := rfl

theorem encAux_seq_cons (f : Nat) (key : String) (sub_value : PyVal) (rest : List PyVal)
    (i : Nat) :
    encAux (f + 1) (.seq key (sub_value :: rest) i)
      = match encAux f (.one key sub_value) with
        | .error e => .error e
        | .ok sub_elements =>
          match encAux f (.seq key rest (i + 1)) with
          | .error e => .error e
          | .ok more =>
            .ok (sub_elements.map
                  (fun e => (e.set "list_member" "True").set "index" (toString i))
                ++ more) := rfl

theorem encAux_objPairs_nil (f : Nat) : encAux (f + 1) (.objPairs []) = .ok [] := rfl

theorem encAux_objPairs_cons (f : Nat) (sub_key : String) (sub_value : PyVal)
    (rest : List (String × PyVal)) :
    encAux (f + 1) (.objPairs ((sub_key, sub_value) :: rest))
      = if isCallableInstance sub_value then
          encAux f (.objPairs rest)
        else
          match encAux f (.one sub_key sub_value) with
          | .error e => .error e
          | .ok nodes =>
            match encAux f (.objPairs rest) with
            | .error e => .error e
            | .ok more => .ok (nodes ++ more) := rfl

theorem encAux_slots_nil (f : Nat) (value : PyVal) :
    encAux (f + 1) (.slots [] value) = .ok [] := rfl

theorem encAux_slots_cons (f : Nat) (slotted_variable : String) (rest : List String)
    (value : PyVal) :
    encAux (f + 1) (.slots (slotted_variable :: rest) value)
      = match pyGetattr value slotted_variable with
        | none => .error (.attributeError (pyTypeName value) slotted_variable)
        | some rebound =>
          if isCallableInstance rebound then
            encAux f (.slots rest rebound)
          else
            match encAux f (.one slotted_variable rebound) with
            | .error e => .error e
            | .ok nodes =>
              match encAux f (.slots rest rebound) with
              | .error e => .error e
              | .ok more => .ok (nodes ++ more) := rfl

theorem encAux_notConv : ∀ (f : Nat) (t : EncTask), taskWeight t < f →
    notConversionError (encAux f t) = true := by
  intro f
  induction f with
  | zero => intro t h; exact absurd h (Nat.not_lt_zero _)
  | succ f ih =>
    intro t h
    cases t with
    | one key value =>
      cases value with
      | PNone => rw [encAux_one_none]; rfl
      | PInt n => rw [encAux_one_int]; rfl
      | PFloat r => rw [encAux_one_float]; rfl
      | PStr s => rw [encAux_one_str]; rfl
      | PDict entries =>
        rw [encAux_one_dict]
        have hw : taskWeight (.pairs entries) < f := by
          simp only [taskWeight, pyWeight] at h ⊢
          omega
        have hnc := ih (.pairs entries) hw
        cases hres : encAux f (.pairs entries) with
        | error e =>
          rw [hres] at hnc
          exact hnc
        | ok ns => rfl
      | PList xs =>
        rw [encAux_one_list]
        exact ih (.seq key xs 0) (by simp only [taskWeight, pyWeight] at h ⊢; omega)
      | PObj tn fields =>
        rw [encAux_one_obj]
        have hw : taskWeight (.objPairs fields) < f := by
          simp only [taskWeight, pyWeight] at h ⊢
          omega
        have hnc := ih (.objPairs fields) hw
        cases hres : encAux f (.objPairs fields) with
        | error e => rw [hres] at hnc; exact hnc
        | ok ns => rfl
      | PFunc fields =>
        rw [encAux_one_func]
        have hw : taskWeight (.objPairs fields) < f := by
          simp only [taskWeight, pyWeight] at h ⊢
          omega
        have hnc := ih (.objPairs fields) hw
        cases hres : encAux f (.objPairs fields) with
        | error e => rw [hres] at hnc; exact hnc
        | ok ns => rfl
      | PSlotted tn fields =>
        rw [encAux_one_slotted]
        have hp := pyWeight_pos (.PSlotted tn fields)
        have hw : taskWeight (.slots (fields.map Prod.fst) (.PSlotted tn fields)) < f := by
          simp only [taskWeight] at h ⊢
          omega
        have hnc := ih (.slots (fields.map Prod.fst) (.PSlotted tn fields)) hw
        cases hres : encAux f (.slots (fields.map Prod.fst) (.PSlotted tn fields)) with
        | error e => rw [hres] at hnc; exact hnc
        | ok ns => rfl
    | pairs entries =>
      cases entries with
      | nil => rw [encAux_pairs_nil]; rfl
      | cons p rest =>
        obtain ⟨sub_key, sub_value⟩ := p
        rw [encAux_pairs_cons]
        have hw1 : taskWeight (.one sub_key sub_value) < f := by
          simp only [taskWeight, pyPairsWeight] at h ⊢
          omega
        have hw2 : taskWeight (.pairs rest) < f := by
          simp only [taskWeight, pyPairsWeight] at h ⊢
          omega
        have hnc1 := ih (.one sub_key sub_value) hw1
        have hnc2 := ih (.pairs rest) hw2
        cases hres1 : encAux f (.one sub_key sub_value) with
        | error e => rw [hres1] at hnc1; exact hnc1
        | ok es =>
          cases hres2 : encAux f (.pairs rest) with
          | error e => rw [hres2] at hnc2; exact hnc2
          | ok more => rfl
    | seq key xs i =>
      cases xs with
      | nil => rw [encAux_seq_nil]; rfl
      | cons sub_value rest =>
        rw [encAux_seq_cons]
        have hw1 : taskWeight (.one key sub_value) < f := by
          simp only [taskWeight, pyListWeight] at h ⊢
          omega
        have hw2 : taskWeight (.seq key rest (i + 1)) < f := by
          simp only [taskWeight, pyListWeight] at h ⊢
          omega
        have hnc1 := ih (.one key sub_value) hw1
        have hnc2 := ih (.seq key rest (i + 1)) hw2
        cases hres1 : encAux f (.one key sub_value) with
        | error e => rw [hres1] at hnc1; exact hnc1
        | ok es =>
          cases hres2 : encAux f (.seq key rest (i + 1)) with
          | error e => rw [hres2] at hnc2; exact hnc2
          | ok more => rfl
    | objPairs entries =>
      cases entries with
      | nil => rw [encAux_objPairs_nil]; rfl
      | cons p rest =>
        obtain ⟨sub_key, sub_value⟩ := p
        rw [encAux_objPairs_cons]
        have hw1 : taskWeight (.one sub_key sub_value) < f := by
          simp only [taskWeight, pyPairsWeight] at h ⊢
          omega
        have hw2 : taskWeight (.objPairs rest) < f := by
          simp only [taskWeight, pyPairsWeight] at h ⊢
          omega
        have hnc1 := ih (.one sub_key sub_value) hw1
        have hnc2 := ih (.objPairs rest) hw2
        by_cases hc : isCallableInstance sub_value = true
        · rw [if_pos hc]
          exact hnc2
        · rw [if_neg hc]
          cases hres1 : encAux f (.one sub_key sub_value) with
          | error e => rw [hres1] at hnc1; exact hnc1
          | ok nodes =>
            cases hres2 : encAux f (.objPairs rest) with
            | error e => rw [hres2] at hnc2; exact hnc2
            | ok more => rfl
    | slots names value =>
      cases names with
      | nil => rw [encAux_slots_nil]; rfl
      | cons slotted_variable rest =>
        rw [encAux_slots_cons]
        cases hga : pyGetattr value slotted_variable with
        | none => rfl
        | some rebound =>
          show notConversionError
              (if isCallableInstance rebound = true then encAux f (EncTask.slots rest rebound)
               else
                 match encAux f (EncTask.one slotted_variable rebound) with
                 | .error e => .error e
                 | .ok nodes =>
                   match encAux f (EncTask.slots rest rebound) with
                   | .error e => .error e
                   | .ok more => .ok (nodes ++ more)) = true
          have hlt := pyGetattr_weight hga
          have hp := pyWeight_pos rebound
          have hw1 : taskWeight (.one slotted_variable rebound) < f := by
            simp only [taskWeight] at h ⊢
            omega
          have hw2 : taskWeight (.slots rest rebound) < f := by
            simp only [taskWeight] at h ⊢
            omega
          have hnc1 := ih (.one slotted_variable rebound) hw1
          have hnc2 := ih (.slots rest rebound) hw2
          by_cases hc : isCallableInstance rebound = true
          · rw [if_pos hc]
            exact hnc2
          · rw [if_neg hc]
            cases hres1 : encAux f (.one slotted_variable rebound) with
            | error e => rw [hres1] at hnc1; exact hnc1
            | ok nodes =>
              cases hres2 : encAux f (.slots rest rebound) with
              | error e => rw [hres2] at hnc2; exact hnc2
              | ok more => rfl

theorem encAux_fuel_agree : ∀ (f g : Nat) (t : EncTask), taskWeight t < f → taskWeight t < g →
    encAux f t = encAux g t := by
  intro f
  induction f with
  | zero => intro g t h _; exact absurd h (Nat.not_lt_zero _)
  | succ f ih =>
    intro g t h hg
    cases g with
    | zero => exact absurd hg (Nat.not_lt_zero _)
    | succ g =>
      cases t with
      | one key value =>
        cases value with
        | PNone => rw [encAux_one_none, encAux_one_none]
        | PInt n => rw [encAux_one_int, encAux_one_int]
        | PFloat r => rw [encAux_one_float, encAux_one_float]
        | PStr s => rw [encAux_one_str, encAux_one_str]
        | PDict entries =>
          rw [encAux_one_dict, encAux_one_dict]
          rw [ih g (.pairs entries)
            (by simp only [taskWeight, pyWeight] at h ⊢; omega)
            (by simp only [taskWeight, pyWeight] at hg ⊢; omega)]
        | PList xs =>
          rw [encAux_one_list, encAux_one_list]
          exact ih g (.seq key xs 0)
            (by simp only [taskWeight, pyWeight] at h ⊢; omega)
            (by simp only [taskWeight, pyWeight] at hg ⊢; omega)
        | PObj tn fields =>
          rw [encAux_one_obj, encAux_one_obj]
          rw [ih g (.objPairs fields)
            (by simp only [taskWeight, pyWeight] at h ⊢; omega)
            (by simp only [taskWeight, pyWeight] at hg ⊢; omega)]
        | PFunc fields =>
          rw [encAux_one_func, encAux_one_func]
          rw [ih g (.objPairs fields)
            (by simp only [taskWeight, pyWeight] at h ⊢; omega)
            (by simp only [taskWeight, pyWeight] at hg ⊢; omega)]
        | PSlotted tn fields =>
          rw [encAux_one_slotted, encAux_one_slotted]
          have hp := pyWeight_pos (.PSlotted tn fields)
          rw [ih g (.slots (fields.map Prod.fst) (.PSlotted tn fields))
            (by simp only [taskWeight] at h ⊢; omega)
            (by simp only [taskWeight] at hg ⊢; omega)]
      | pairs entries =>
        cases entries with
        | nil => rw [encAux_pairs_nil, encAux_pairs_nil]
        | cons p rest =>
          obtain ⟨sub_key, sub_value⟩ := p
          rw [encAux_pairs_cons, encAux_pairs_cons]
          rw [ih g (.one sub_key sub_value)
            (by simp only [taskWeight, pyPairsWeight] at h ⊢; omega)
            (by simp only [taskWeight, pyPairsWeight] at hg ⊢; omega)]
          rw [ih g (.pairs rest)
            (by simp only [taskWeight, pyPairsWeight] at h ⊢; omega)
            (by simp only [taskWeight, pyPairsWeight] at hg ⊢; omega)]
      | seq key xs i =>
        cases xs with
        | nil => rw [encAux_seq_nil, encAux_seq_nil]
        | cons sub_value rest =>
          rw [encAux_seq_cons, encAux_seq_cons]
          rw [ih g (.one key sub_value)
            (by simp only [taskWeight, pyListWeight] at h ⊢; omega)
            (by simp only [taskWeight, pyListWeight] at hg ⊢; omega)]
          rw [ih g (.seq key rest (i + 1))
            (by simp only [taskWeight, pyListWeight] at h ⊢; omega)
            (by simp only [taskWeight, pyListWeight] at hg ⊢; omega)]
      | objPairs entries =>
        cases entries with
        | nil => rw [encAux_objPairs_nil, encAux_objPairs_nil]
        | cons p rest =>
          obtain ⟨sub_key, sub_value⟩ := p
          rw [encAux_objPairs_cons, encAux_objPairs_cons]
          rw [ih g (.one sub_key sub_value)
            (by simp only [taskWeight, pyPairsWeight] at h ⊢; omega)
            (by simp only [taskWeight, pyPairsWeight] at hg ⊢; omega)]
          rw [ih g (.objPairs rest)
            (by simp only [taskWeight, pyPairsWeight] at h ⊢; omega)
            (by simp only [taskWeight, pyPairsWeight] at hg ⊢; omega)]
      | slots names value =>
        cases names with
        | nil => rw [encAux_slots_nil, encAux_slots_nil]
        | cons slotted_variable rest =>
          rw [encAux_slots_cons, encAux_slots_cons]
          cases hga : pyGetattr value slotted_variable with
          | none => rfl
          | some rebound =>
            show (if isCallableInstance rebound = true then encAux f (EncTask.slots rest rebound)
                  else
                    match encAux f (EncTask.one slotted_variable rebound) with
                    | .error e => .error e
                    | .ok nodes =>
                      match encAux f (EncTask.slots rest rebound) with
                      | .error e => .error e
                      | .ok more => .ok (nodes ++ more))
                = (if isCallableInstance rebound = true then encAux g (EncTask.slots rest rebound)
                   else
                     match encAux g (EncTask.one slotted_variable rebound) with
                     | .error e => .error e
                     | .ok nodes =>
                       match encAux g (EncTask.slots rest rebound) with
                       | .error e => .error e
                       | .ok more => .ok (nodes ++ more))
            have hlt := pyGetattr_weight hga
            have hp := pyWeight_pos rebound
            rw [ih g (.one slotted_variable rebound)
              (by simp only [taskWeight] at h ⊢; omega)
              (by simp only [taskWeight] at hg ⊢; omega)]
            rw [ih g (.slots rest rebound)
              (by simp only [taskWeight] at h ⊢; omega)
              (by simp only [taskWeight] at hg ⊢; omega)]

theorem build_element_dict (key : String) (entries : List (String × PyVal)) :
    build_element key (.PDict entries)
      = match encodeMappingEntries entries with
        | .error e => .error e
        | .ok found_nodes =>
          .ok [{ tag := key, attrs := [("datatype", "dict"), ("list_member", "False")],
                 text := none,
                 children := markPass (foundKeyCount found_nodes) found_nodes (fun _ => 0) }] := by
  show encAux (4 * pyWeight (.PDict entries) + 1) (.one key (.PDict entries)) = _
  rw [encAux_one_dict]
  rw [encAux_fuel_agree (4 * pyWeight (.PDict entries)) (4 * pyPairsWeight entries + 1)
    (.pairs entries)
    (by simp only [taskWeight, pyWeight]; omega)
    (by simp only [taskWeight]; omega)]
  rfl

theorem encAux_seq_spec : ∀ (xs : List PyVal) (f : Nat) (key : String) (i : Nat),
    4 * pyListWeight xs < f → encAux f (.seq key xs i) = seqSpec key xs i := by
  intro xs
  induction xs with
  | nil =>
    intro f key i h
    cases f with
    | zero => exact absurd h (Nat.not_lt_zero _)
    | succ f => rw [encAux_seq_nil]; rfl
  | cons x rest ih =>
    intro f key i h
    cases f with
    | zero => exact absurd h (Nat.not_lt_zero _)
    | succ f =>
      rw [encAux_seq_cons]
      rw [encAux_fuel_agree f (4 * pyWeight x + 1) (.one key x)
        (by simp only [taskWeight, pyListWeight] at h ⊢; omega)
        (by simp only [taskWeight]; omega)]
      rw [ih f key (i + 1) (by simp only [pyListWeight] at h ⊢; omega)]
      rfl

theorem build_element_seq_elementwise (key : String) (xs : List PyVal) :
    build_element key (.PList xs) = seqSpec key xs 0 := by
  show encAux (4 * pyWeight (.PList xs) + 1) (.one key (.PList xs)) = _
  rw [encAux_one_list]
  exact encAux_seq_spec xs _ key 0 (by simp only [pyWeight]; omega)

theorem encAux_tag : ∀ (f : Nat) (t : EncTask) (es : List Elem), encAux f t = .ok es →
    ∀ e ∈ es, taskTagOK t e := by
  intro f
  induction f with
  | zero => intro t es h; simp [encAux] at h
  | succ f ih =>
    intro t es hok e hmem
    cases t with
    | one key value =>
      show e.tag = key
      cases value with
      | PNone =>
        rw [encAux_one_none] at hok
        injection hok with hok
        rw [← hok] at hmem
        rw [List.mem_singleton] at hmem
        rw [hmem]
      | PInt n =>
        rw [encAux_one_int] at hok
        injection hok with hok
        rw [← hok] at hmem
        rw [List.mem_singleton] at hmem
        rw [hmem]
      | PFloat r =>
        rw [encAux_one_float] at hok
        injection hok with hok
        rw [← hok] at hmem
        rw [List.mem_singleton] at hmem
        rw [hmem]
      | PStr s =>
        rw [encAux_one_str] at hok
        injection hok with hok
        rw [← hok] at hmem
        rw [List.mem_singleton] at hmem
        rw [hmem]
      | PDict entries =>
        rw [encAux_one_dict] at hok
        cases hres : encAux f (.pairs entries) with
        | error er => rw [hres] at hok; exact absurd hok (by simp)
        | ok found_nodes =>
          rw [hres] at hok
          injection hok with hok
          rw [← hok] at hmem
          rw [List.mem_singleton] at hmem
          rw [hmem]
      | PList xs =>
        rw [encAux_one_list] at hok
        exact ih (.seq key xs 0) es hok e hmem
      | PObj tn fields =>
        rw [encAux_one_obj] at hok
        cases hres : encAux f (.objPairs fields) with
        | error er => rw [hres] at hok; exact absurd hok (by simp)
        | ok nodes =>
          rw [hres] at hok
          injection hok with hok
          rw [← hok] at hmem
          rw [List.mem_singleton] at hmem
          rw [hmem]
      | PFunc fields =>
        rw [encAux_one_func] at hok
        cases hres : encAux f (.objPairs fields) with
        | error er => rw [hres] at hok; exact absurd hok (by simp)
        | ok nodes =>
          rw [hres] at hok
          injection hok with hok
          rw [← hok] at hmem
          rw [List.mem_singleton] at hmem
          rw [hmem]
      | PSlotted tn fields =>
        rw [encAux_one_slotted] at hok
        cases hres : encAux f (.slots (fields.map Prod.fst) (.PSlotted tn fields)) with
        | error er => rw [hres] at hok; exact absurd hok (by simp)
        | ok nodes =>
          rw [hres] at hok
          injection hok with hok
          rw [← hok] at hmem
          rw [List.mem_singleton] at hmem
          rw [hmem]
    | pairs entries => trivial
    | objPairs entries => trivial
    | slots names value => trivial
    | seq key xs i =>
      show e.tag = key
      cases xs with
      | nil =>
        rw [encAux_seq_nil] at hok
        injection hok with hok
        rw [← hok] at hmem
        exact absurd hmem (List.not_mem_nil e)
      | cons x rest =>
        rw [encAux_seq_cons] at hok
        cases hres1 : encAux f (.one key x) with
        | error er => rw [hres1] at hok; exact absurd hok (by simp)
        | ok sub_elements =>
          rw [hres1] at hok
          cases hres2 : encAux f (.seq key rest (i + 1)) with
          | error er => rw [hres2] at hok; exact absurd hok (by simp)
          | ok more =>
            rw [hres2] at hok
            injection hok with hok
            rw [← hok] at hmem
            rw [List.mem_append] at hmem
            cases hmem with
            | inl hmap =>
              rw [List.mem_map] at hmap
              obtain ⟨e0, he0, heq⟩ := hmap
              have := ih (.one key x) sub_elements hres1 e0 he0
              rw [← heq, Elem.set_tag, Elem.set_tag]
              exact this
            | inr hmore =>
              exact ih (.seq key rest (i + 1)) more hres2 e hmore

theorem seqSpec_marks : ∀ (xs : List PyVal) (key : String) (i : Nat) (es : List Elem),
    seqSpec key xs i = .ok es →
    ∀ e ∈ es, e.get "list_member" = some "True" ∧
      ∃ j, i ≤ j ∧ j < i + xs.length ∧ e.get "index" = some (toString j) := by
  intro xs
  induction xs with
  | nil =>
    intro key i es hok e hmem
    simp only [seqSpec] at hok
    injection hok with hok
    rw [← hok] at hmem
    exact absurd hmem (List.not_mem_nil e)
  | cons x rest ih =>
    intro key i es hok e hmem
    simp only [seqSpec] at hok
    cases hres1 : build_element key x with
    | error er => rw [hres1] at hok; exact absurd hok (by simp)
    | ok es0 =>
      rw [hres1] at hok
      cases hres2 : seqSpec key rest (i + 1) with
      | error er => rw [hres2] at hok; exact absurd hok (by simp)
      | ok more =>
        rw [hres2] at hok
        injection hok with hok
        rw [← hok] at hmem
        rw [List.mem_append] at hmem
        cases hmem with
        | inl hmap =>
          rw [List.mem_map] at hmap
          obtain ⟨e0, _, heq⟩ := hmap
          constructor
          · rw [← heq]
            rw [Elem.get_set_other _ _ _ _ (by intro hc; exact absurd hc (by simp))]
            exact Elem.get_set_same e0 "list_member" "True"
          · refine ⟨i, le_refl i, by simp, ?_⟩
            rw [← heq]
            exact Elem.get_set_same _ "index" (toString i)
        | inr hmore =>
          obtain ⟨hlm, j, hj1, hj2, hidx⟩ := ih key (i + 1) more hres2 e hmore
          refine ⟨hlm, j, by omega, by simp only [List.length_cons]; omega, hidx⟩

theorem seqSpec_length : ∀ (xs : List PyVal) (key : String) (i : Nat) (es : List Elem) (M : Nat),
    seqSpec key xs i = .ok es →
    (∀ j (hj : j < xs.length), ∃ esj, build_element key (xs.get ⟨j, hj⟩) = .ok esj ∧ esj.length = M) →
    es.length = xs.length * M := by
  intro xs
  induction xs with
  | nil =>
    intro key i es M hok _
    simp only [seqSpec] at hok
    injection hok with hok
    rw [← hok]
    simp
  | cons x rest ih =>
    intro key i es M hok hall
    simp only [seqSpec] at hok
    obtain ⟨es0, hes0, hlen0⟩ := hall 0 (by simp)
    simp only [List.get] at hes0
    rw [hes0] at hok
    cases hres2 : seqSpec key rest (i + 1) with
    | error er => rw [hres2] at hok; exact absurd hok (by simp)
    | ok more =>
      rw [hres2] at hok
      injection hok with hok
      have hmore : more.length = rest.length * M := by
        refine ih key (i + 1) more M hres2 ?_
        intro j hj
        exact hall (j + 1) (by simp only [List.length_cons]; omega)
      rw [← hok]
      simp only [List.length_append, List.length_map, List.length_cons]
      rw [hlen0, hmore]
      ring

theorem markPass_length : ∀ (counts : String → Nat) (ns : List Elem) (idx : String → Nat),
    (markPass counts ns idx).length = ns.length := by
  intro counts ns
  induction ns with
  | nil => intro idx; rfl
  | cons n rest ih =>
    intro idx
    simp only [markPass]
    by_cases h : counts n.tag > 1
    · rw [if_pos h]
      simp only [List.length_cons, ih]
    · rw [if_neg h]
      simp only [List.length_cons, ih]

theorem countTagBefore_zero (ns : List Elem) (t : String) : countTagBefore ns 0 t = 0 := by
  simp [countTagBefore]

theorem countTagBefore_cons_succ (n : Elem) (rest : List Elem) (i : Nat) (t : String) :
    countTagBefore (n :: rest) (i + 1) t
      = countTagBefore rest i t + (if n.tag == t then 1 else 0) := by
  simp only [countTagBefore, List.take_succ_cons, List.countP_cons]

theorem markPass_getD : ∀ (counts : String → Nat) (ns : List Elem) (idx : String → Nat) (i : Nat),
    i < ns.length →
    (markPass counts ns idx).getD i eNil
      = (if counts ((ns.getD i eNil).tag) > 1 then
           ((ns.getD i eNil).set "list_member" "True").set "index"
             (toString (idx ((ns.getD i eNil).tag) + countTagBefore ns i ((ns.getD i eNil).tag)))
         else ns.getD i eNil) := by
  intro counts ns
  induction ns with
  | nil => intro idx i h; exact absurd h (by simp)
  | cons n rest ih =>
    intro idx i hi
    simp only [markPass]
    by_cases hb : counts n.tag > 1
    · rw [if_pos hb]
      cases i with
      | zero =>
        simp only [List.getD_cons_zero]
        rw [if_pos hb, countTagBefore_zero]
        simp
      | succ i =>
        simp only [List.getD_cons_succ]
        have hi' : i < rest.length := by simp only [List.length_cons] at hi; omega
        rw [ih _ i hi']
        by_cases hb2 : counts ((rest.getD i eNil).tag) > 1
        · rw [if_pos hb2, if_pos hb2]
          rw [countTagBefore_cons_succ]
          by_cases ht : (rest.getD i eNil).tag = n.tag
          · rw [if_pos ht]
            have hbeq : (n.tag == (rest.getD i eNil).tag) = true := by
              rw [beq_iff_eq]; exact ht.symm
            rw [hbeq]
            have harith : idx (rest.getD i eNil).tag + 1 + countTagBefore rest i (rest.getD i eNil).tag
                = idx (rest.getD i eNil).tag + (countTagBefore rest i (rest.getD i eNil).tag + 1) := by
              omega
            rw [harith]
            simp
          · rw [if_neg ht]
            have hbeq : (n.tag == (rest.getD i eNil).tag) = false := by
              rw [beq_eq_false_iff_ne]
              intro hc
              exact ht hc.symm
            rw [hbeq]
            simp
        · rw [if_neg hb2, if_neg hb2]
    · rw [if_neg hb]
      cases i with
      | zero =>
        simp only [List.getD_cons_zero]
        rw [if_neg hb]
      | succ i =>
        simp only [List.getD_cons_succ]
        have hi' : i < rest.length := by simp only [List.length_cons] at hi; omega
        rw [ih _ i hi']
        by_cases hb2 : counts ((rest.getD i eNil).tag) > 1
        · rw [if_pos hb2, if_pos hb2]
          rw [countTagBefore_cons_succ]
          have ht : ¬((rest.getD i eNil).tag = n.tag) := by
            intro hc
            rw [hc] at hb2
            omega
          have hbeq : (n.tag == (rest.getD i eNil).tag) = false := by
            rw [beq_eq_false_iff_ne]
            intro hc
            exact ht hc.symm
          rw [hbeq]
          simp
        · rw [if_neg hb2, if_neg hb2]

theorem addNode_group_len (acc : List (String × Grouped)) (n : PNode)
    (hinv : ∀ p ∈ acc, ∀ ns, p.2 = Grouped.group ns → 2 ≤ ns.length) :
    ∀ p ∈ addNode acc n, ∀ ns, p.2 = Grouped.group ns → 2 ≤ ns.length := by
  induction acc with
  | nil =>
    intro p hp ns hns
    simp only [addNode, List.mem_singleton] at hp
    rw [hp] at hns
    simp at hns
  | cons q rest ih =>
    obtain ⟨t, g⟩ := q
    intro p hp ns hns
    simp only [addNode] at hp
    by_cases ht : t = n.elem.tag
    · rw [if_pos ht] at hp
      cases g with
      | single m =>
        rw [List.mem_cons] at hp
        cases hp with
        | inl hp =>
          rw [hp] at hns
          simp only at hns
          injection hns with hns
          rw [← hns]
          simp
        | inr hp => exact hinv p (List.mem_cons_of_mem _ hp) ns hns
      | group ms =>
        rw [List.mem_cons] at hp
        cases hp with
        | inl hp =>
          rw [hp] at hns
          simp only at hns
          injection hns with hns
          have hms := hinv (t, Grouped.group ms) (List.mem_cons_self _ _) ms rfl
          rw [← hns]
          simp only [List.length_append, List.length_singleton]
          omega
        | inr hp => exact hinv p (List.mem_cons_of_mem _ hp) ns hns
    · rw [if_neg ht] at hp
      rw [List.mem_cons] at hp
      cases hp with
      | inl hp =>
        rw [hp] at hns
        exact hinv (t, g) (List.mem_cons_self _ _) ns hns
      | inr hp =>
        exact ih (fun q hq => hinv q (List.mem_cons_of_mem _ hq)) p hp ns hns

theorem foldl_addNode_group_len : ∀ (nodes : List PNode) (acc : List (String × Grouped)),
    (∀ p ∈ acc, ∀ ns, p.2 = Grouped.group ns → 2 ≤ ns.length) →
    ∀ p ∈ nodes.foldl addNode acc, ∀ ns, p.2 = Grouped.group ns → 2 ≤ ns.length := by
  intro nodes
  induction nodes with
  | nil => intro acc hinv; exact hinv
  | cons n rest ih =>
    intro acc hinv
    exact ih (addNode acc n) (addNode_group_len acc n hinv)

theorem groupByTag_group_len (nodes : List PNode) (tag : String) (ns : List PNode)
    (h : (tag, Grouped.group ns) ∈ groupByTag nodes) : 2 ≤ ns.length :=
  foldl_addNode_group_len nodes [] (by intro p hp; exact absurd hp (List.not_mem_nil p))
    (tag, Grouped.group ns) h ns rfl

theorem markAndSort_marked (ns : List PNode) (m : PNode) (h : m ∈ markAndSort ns) :
    m.elem.get "list_member" = some "True" := by
  have hperm := List.perm_insertionSort pKeyLE (ns.map markNode)
  have hmem : m ∈ ns.map markNode := hperm.mem_iff.mp h
  rw [List.mem_map] at hmem
  obtain ⟨n, _, heq⟩ := hmem
  rw [← heq]
  exact Elem.get_set_same n.elem "list_member" "True"

theorem markAndSort_sorted (ns : List PNode) : List.Sorted pKeyLE (markAndSort ns) :=
  List.sorted_insertionSort pKeyLE (ns.map markNode)

theorem markAndSort_perm (ns : List PNode) : (markAndSort ns).Perm (ns.map markNode) :=
  List.perm_insertionSort pKeyLE (ns.map markNode)

theorem markAndSort_length (ns : List PNode) : (markAndSort ns).length = ns.length := by
  rw [(markAndSort_perm ns).length_eq, List.length_map]

theorem parentIndexKey_default (n : PNode) (h : n.parent.get "index" = none) :
    parentIndexKey n = 0 := by
  simp [parentIndexKey, h]

theorem assembleWith_group_mem (recd : List PNode → PyVal) (nodes : List PNode)
    (tag : String) (ns : List PNode) (h : (tag, Grouped.group ns) ∈ groupByTag nodes) :
    (tag, PyVal.PList ((markAndSort ns).map (decodeMemberWith recd))) ∈ assembleWith recd nodes := by
  have := List.mem_map_of_mem
    (fun tg : String × Grouped =>
      match tg.2 with
      | .group ms => (tg.1, PyVal.PList ((markAndSort ms).map (decodeMemberWith recd)))
      | .single n => (tg.1, decodeSingleWith recd tg.1 n)) h
  exact this

theorem xml_to_json_collapse (nodes : List PNode) (tag : String) (v : PyVal)
    (h : assembleResults nodes = [(tag, v)]) : xml_to_json nodes = v := by
  show decAux (nodesWeight nodes + 1) nodes = v
  have : decAux (nodesWeight nodes + 1) nodes
      = match assembleWith (decAux (nodesWeight nodes)) nodes with
        | [(_, v)] => v
        | results => .PDict results := rfl
  rw [this]
  have h2 : assembleWith (decAux (nodesWeight nodes)) nodes = [(tag, v)] := h
  rw [h2]

/-- C1: the decoder's single-node branch never dispatches on `datatype`:
it reads the absent `database` attribute (source line 293) and always
falls back to string decoding, so an int-typed node decodes to the text
string `"5"` rather than the integer 5, a float-typed node decodes to its
text, and a dict-typed node decodes to its text (`None`); only the
claim's no-`datatype`-decodes-to-text part holds, and only because every
single node decodes to text. -/
theorem c1_single_node_dispatch_ignores_datatype :
    decodeTreeChildren [("x", .PInt 5)] = .ok (.PStr "5") ∧
    decodeTreeChildren [("y", .PFloat "2.5")] = .ok (.PStr "2.5") ∧
    decodeTreeChildren [("d", .PDict [("k", .PStr "v")])] = .ok .PNone ∧
    xml_to_json [{ elem := { tag := "n", attrs := [], text := some "hi", children := [] },
                   parent := { tag := "root", attrs := [], text := none, children := [] } }]
      = .PStr "hi" ∧
    (PyVal.PStr "5" ≠ PyVal.PInt 5) :=
  ⟨rfl, rfl, rfl, rfl, by simp⟩

/-- C2: the round-trip fails on the code — decoding the children of the
tree encoding `{"x": 5, "z": 2.5, "y": "a"}` yields every value as its
text string (the `database` typo keeps the int/float branches dead), not
the original numbers. -/
theorem c2_roundtrip_yields_strings_not_numbers :
    decodeTreeChildren [("x", .PInt 5), ("z", .PFloat "2.5"), ("y", .PStr "a")]
      = .ok (.PDict [("x", .PStr "5"), ("z", .PStr "2.5"), ("y", .PStr "a")]) ∧
    (PyVal.PDict [("x", .PStr "5"), ("z", .PStr "2.5"), ("y", .PStr "a")]
      ≠ PyVal.PDict [("x", .PInt 5), ("z", .PFloat "2.5"), ("y", .PStr "a")]) :=
  ⟨rfl, by simp⟩

/-- C3: order is not recovered from the `index` attribute — the decoder
sorts by the parent's `index` (absent on the root, so every key is 0) and
the stable sort keeps the shuffled sequence order: decoding the nodes of
`{"a": [10, 20, 30]}` presented as `[20, 10, 30]` returns
`[20.0, 10.0, 30.0]` (floats, via the `int`-as-`float` quirk), not
`[10, 20, 30]`. -/
theorem c3_shuffled_sequence_order_not_recovered :
    build_tree [("a", .PList [.PInt 10, .PInt 20, .PInt 30])] = .ok tRoot ∧
    xml_to_json [{ elem := tA1, parent := tRoot }, { elem := tA0, parent := tRoot },
                 { elem := tA2, parent := tRoot }]
      = .PList [.PFloat "20.0", .PFloat "10.0", .PFloat "30.0"] ∧
    (PyVal.PList [.PFloat "20.0", .PFloat "10.0", .PFloat "30.0"]
      ≠ PyVal.PList [.PFloat "10.0", .PFloat "20.0", .PFloat "30.0"]) ∧
    (PyVal.PList [.PFloat "20.0", .PFloat "10.0", .PFloat "30.0"]
      ≠ PyVal.PList [.PInt 10, .PInt 20, .PInt 30]) :=
  ⟨rfl, rfl, by simp, by simp⟩

/-- C4 counterexample: encoding a raw function does not raise — a plain
function (empty `__dict__`) is encoded by the `__dict__` branch into a
composite node, so the claim that it raises ConversionError is false. -/
theorem c4_counterexample_function_encodes_without_error :
    build_element "f" (.PFunc [])
      = .ok [{ tag := "f", attrs := [("datatype", "function"), ("list_member", "False")],
               text := none, children := [] }] := rfl

/-- C4 (amended): a raw function carries `__dict__`, so the encoder's
enumerable-fields branch silently coerces it into one composite node with
`datatype="function"` and no children; no ConversionError is raised. -/
theorem c4_function_silently_coerced :
    ∀ key : String, build_element key (.PFunc [])
      = .ok [{ tag := key, attrs := [("datatype", "function"), ("list_member", "False")],
               text := none, children := [] }] :=
  fun _ => rfl

/-- C5 counterexample: decoding the node selected for
`{"only": {"x": 1}}` returns `None` (the node's text — the `database`
typo keeps the dict branch dead), not the unwrapped `{"x": 1}`. -/
theorem c5_counterexample_only_node_decodes_to_none :
    build_tree [("only", .PDict [("x", .PInt 1)])] = .ok onlyRoot ∧
    xml_to_json [{ elem := onlyElem, parent := onlyRoot }] = .PNone ∧
    (PyVal.PNone ≠ PyVal.PDict [("x", .PInt 1)]) :=
  ⟨rfl, rfl, by simp⟩

/-- C5 (amended): whenever the assembled per-tag mapping has exactly one
key, the decoder returns that key's value directly, discarding the key;
on the claim's example the value so unwrapped is `None` (not
`{"x": 1}`), because the single-node branch string-decodes the `only`
node. -/
theorem c5_single_key_collapse :
    (∀ (nodes : List PNode) (tag : String) (v : PyVal),
       assembleResults nodes = [(tag, v)] → xml_to_json nodes = v) ∧
    xml_to_json [{ elem := onlyElem, parent := onlyRoot }] = .PNone :=
  ⟨xml_to_json_collapse, rfl⟩

/-- C5 witness: the collapse theorem applied to the concrete singleton
decode of an int leaf. -/
theorem c5_single_key_collapse_witness :
    assembleResults [{ elem := { tag := "x", attrs := [("datatype", "int"), ("list_member", "False")],
                                 text := some "5", children := [] },
                       parent := { tag := "root", attrs := [], text := none, children := [] } }]
      = [("x", PyVal.PStr "5")] ∧
    xml_to_json [{ elem := { tag := "x", attrs := [("datatype", "int"), ("list_member", "False")],
                             text := some "5", children := [] },
                   parent := { tag := "root", attrs := [], text := none, children := [] } }]
      = .PStr "5" :=
  ⟨rfl, c5_single_key_collapse.1 _ "x" (.PStr "5") rfl⟩

/-- C6 counterexample: encoding the mapping `{"a": [5]}` collects one
node with tag `a` (count 1), yet that node carries `list_member="True"`
and `index="0"` — set by the sequence branch, which the marking pass
leaves untouched — so a tag occurring exactly once does not keep
`list_member=false` with no index. -/
theorem c6_counterexample_singleton_list_keeps_marks :
    build_element "m" (.PDict [("a", .PList [.PInt 5])]) = .ok [singletonListElem] ∧
    foundKeyCount singletonListElem.children "a" = 1 ∧
    (singletonListElem.children.getD 0 eNil).get "list_member" = some "True" ∧
    (singletonListElem.children.getD 0 eNil).get "index" = some "0" :=
  ⟨rfl, rfl, rfl, rfl⟩

/-- C6 (amended): the mapping branch counts tag occurrences over all
nodes collected from recursively encoding its entries and runs the
marking pass over them; the marking pass preserves length and maps
position `i` to the original node when its tag was counted at most once
(keeping whatever attributes its own encoding produced), and to the node
overwritten with `list_member="True"` and `index` equal to the number of
earlier same-tag nodes (0, 1, 2, … in production order) when counted more
than once; decoding a repeated tag yields a list with exactly one element
per node of the group. -/
theorem c6_repeated_tag_counting_and_marking :
    (∀ (key : String) (entries : List (String × PyVal)) (es : List Elem),
       build_element key (.PDict entries) = .ok es →
       ∃ found_nodes, encodeMappingEntries entries = .ok found_nodes ∧
         es = [{ tag := key, attrs := [("datatype", "dict"), ("list_member", "False")],
                 text := none,
                 children := markPass (foundKeyCount found_nodes) found_nodes (fun _ => 0) }]) ∧
    (∀ (counts : String → Nat) (ns : List Elem) (idx : String → Nat),
       (markPass counts ns idx).length = ns.length) ∧
    (∀ (counts : String → Nat) (ns : List Elem) (idx : String → Nat) (i : Nat),
       i < ns.length →
       (markPass counts ns idx).getD i eNil
         = (if counts ((ns.getD i eNil).tag) > 1 then
              ((ns.getD i eNil).set "list_member" "True").set "index"
                (toString (idx ((ns.getD i eNil).tag) + countTagBefore ns i ((ns.getD i eNil).tag)))
            else ns.getD i eNil)) ∧
    (∀ (nodes : List PNode) (tag : String) (ns : List PNode),
       (tag, Grouped.group ns) ∈ groupByTag nodes →
       ∃ l, (tag, PyVal.PList l) ∈ assembleResults nodes ∧ l.length = ns.length) := by
  refine ⟨?_, markPass_length, markPass_getD, ?_⟩
  · intro key entries es hok
    rw [build_element_dict] at hok
    cases hres : encodeMappingEntries entries with
    | error er => rw [hres] at hok; exact absurd hok (by simp)
    | ok found_nodes =>
      rw [hres] at hok
      injection hok with hok
      exact ⟨found_nodes, rfl, hok.symm⟩
  · intro nodes tag ns h
    refine ⟨(markAndSort ns).map (decodeMemberWith (decAux (nodesWeight nodes))), ?_, ?_⟩
    · exact assembleWith_group_mem _ nodes tag ns h
    · rw [List.length_map, markAndSort_length]

/-- C6 witness: the amended theorem applied to `{"a": [5]}` (encoder
side), to a concrete marking-pass position, and to the three-node `a`
group of the `{"a": [10, 20, 30]}` fixture (decoder side). -/
theorem c6_repeated_tag_counting_and_marking_witness :
    (∃ found_nodes, encodeMappingEntries [("a", PyVal.PList [.PInt 5])] = .ok found_nodes ∧
       [singletonListElem]
         = [{ tag := "m", attrs := [("datatype", "dict"), ("list_member", "False")],
              text := none,
              children := markPass (foundKeyCount found_nodes) found_nodes (fun _ => 0) }]) ∧
    (markPass (fun _ => 2) [eNil] (fun _ => 0)).getD 0 eNil
      = (if (2 : Nat) > 1 then
           ((([eNil] : List Elem).getD 0 eNil).set "list_member" "True").set "index"
             (toString (0 + countTagBefore [eNil] 0 (([eNil] : List Elem).getD 0 eNil).tag))
         else ([eNil] : List Elem).getD 0 eNil) ∧
    (∃ l, ("a", PyVal.PList l) ∈ assembleResults
        [{ elem := tA1, parent := tRoot }, { elem := tA0, parent := tRoot },
         { elem := tA2, parent := tRoot }]
      ∧ l.length = ([{ elem := tA1, parent := tRoot }, { elem := tA0, parent := tRoot },
                     { elem := tA2, parent := tRoot }] : List PNode).length) :=
  ⟨c6_repeated_tag_counting_and_marking.1 "m" [("a", .PList [.PInt 5])] [singletonListElem] rfl,
   c6_repeated_tag_counting_and_marking.2.2.1 (fun _ => 2) [eNil] (fun _ => 0) 0 (by simp),
   c6_repeated_tag_counting_and_marking.2.2.2
     [{ elem := tA1, parent := tRoot }, { elem := tA0, parent := tRoot },
      { elem := tA2, parent := tRoot }] "a"
     [{ elem := tA1, parent := tRoot }, { elem := tA0, parent := tRoot },
      { elem := tA2, parent := tRoot }]
     (List.mem_singleton.mpr rfl)⟩

/-- C7: every repeated-tag group the decoder forms has at least two
nodes; after the decoder's second loop each node of the group carries
`list_member="True"`, the group is sorted by the `index` attribute read
from each node's parent (not the node's own `index`), the sorted group is
a permutation of the marked input, and a parent with no `index` attribute
contributes the key 0. -/
theorem c7_group_sorted_by_parent_index :
    (∀ (nodes : List PNode) (tag : String) (ns : List PNode),
       (tag, Grouped.group ns) ∈ groupByTag nodes → 2 ≤ ns.length) ∧
    (∀ (ns : List PNode) (m : PNode), m ∈ markAndSort ns →
       m.elem.get "list_member" = some "True") ∧
    (∀ ns : List PNode, List.Sorted pKeyLE (markAndSort ns)) ∧
    (∀ ns : List PNode, (markAndSort ns).Perm (ns.map markNode)) ∧
    (∀ n : PNode, n.parent.get "index" = none → parentIndexKey n = 0) :=
  ⟨groupByTag_group_len, markAndSort_marked, markAndSort_sorted, markAndSort_perm,
   parentIndexKey_default⟩

/-- C7 witness: the theorem applied to the `{"a": [10, 20, 30]}` fixture:
its three-node group, membership of the first sorted node, and the
default-0 key of a node whose parent is the attribute-free root. -/
theorem c7_group_sorted_by_parent_index_witness :
    2 ≤ ([{ elem := tA1, parent := tRoot }, { elem := tA0, parent := tRoot },
          { elem := tA2, parent := tRoot }] : List PNode).length ∧
    ({ elem := tA0, parent := tRoot } : PNode).elem.get "list_member" = some "True" ∧
    parentIndexKey { elem := tA0, parent := tRoot } = 0 :=
  ⟨c7_group_sorted_by_parent_index.1
     [{ elem := tA1, parent := tRoot }, { elem := tA0, parent := tRoot },
      { elem := tA2, parent := tRoot }] "a"
     [{ elem := tA1, parent := tRoot }, { elem := tA0, parent := tRoot },
      { elem := tA2, parent := tRoot }]
     (List.mem_singleton.mpr rfl),
   c7_group_sorted_by_parent_index.2.1
     [{ elem := tA0, parent := tRoot }, { elem := tA1, parent := tRoot }]
     { elem := tA0, parent := tRoot }
     (List.mem_cons_self _ _),
   c7_group_sorted_by_parent_index.2.2.2.2 { elem := tA0, parent := tRoot } rfl⟩

/-- C8: the container branch is exactly the element-wise encoding — each
element at 0-based position `i` is encoded by `_build_element(key,
element)`, every node it produces is overwritten with
`list_member="True"` and `index=i`, and the results are appended in
element order; consequently every output node is tagged `key`, carries
the marks with an in-range index, and a sequence of N elements each
encoding to M nodes yields exactly N×M output nodes. -/
theorem c8_sequence_elementwise_encoding :
    (∀ (key : String) (xs : List PyVal), build_element key (.PList xs) = seqSpec key xs 0) ∧
    (∀ (key : String) (xs : List PyVal) (es : List Elem),
       build_element key (.PList xs) = .ok es →
       (∀ e ∈ es, e.tag = key ∧ e.get "list_member" = some "True" ∧
          ∃ i, i < xs.length ∧ e.get "index" = some (toString i)) ∧
       (∀ M : Nat,
          (∀ j (hj : j < xs.length),
            ∃ esj, build_element key (xs.get ⟨j, hj⟩) = .ok esj ∧ esj.length = M) →
          es.length = xs.length * M)) := by
  refine ⟨build_element_seq_elementwise, ?_⟩
  intro key xs es hok
  have hspec : seqSpec key xs 0 = .ok es := by
    rw [← build_element_seq_elementwise]
    exact hok
  constructor
  · intro e hmem
    have htag := encAux_tag (4 * pyWeight (.PList xs) + 1) (.one key (.PList xs)) es hok e hmem
    have hmk := seqSpec_marks xs key 0 es hspec e hmem
    obtain ⟨hlm, j, _, hj2, hidx⟩ := hmk
    exact ⟨htag, hlm, j, by omega, hidx⟩
  · intro M hall
    exact seqSpec_length xs key 0 es M hspec hall

/-- C8 witness: the theorem applied to `encode("a", [1, 2])`: both nodes
tagged `a` with marks and indices, and the 2×1 node count. -/
theorem c8_sequence_elementwise_encoding_witness :
    (∀ e ∈ ([{ tag := "a", attrs := [("datatype", "int"), ("list_member", "True"), ("index", "0")],
               text := some "1", children := [] },
             { tag := "a", attrs := [("datatype", "int"), ("list_member", "True"), ("index", "1")],
               text := some "2", children := [] }] : List Elem),
       e.tag = "a" ∧ e.get "list_member" = some "True" ∧
         ∃ i, i < ([PyVal.PInt 1, PyVal.PInt 2] : List PyVal).length ∧
           e.get "index" = some (toString i)) ∧
    ([{ tag := "a", attrs := [("datatype", "int"), ("list_member", "True"), ("index", "0")],
        text := some "1", children := [] },
      { tag := "a", attrs := [("datatype", "int"), ("list_member", "True"), ("index", "1")],
        text := some "2", children := [] }] : List Elem).length
      = ([PyVal.PInt 1, PyVal.PInt 2] : List PyVal).length * 1 := by
  have h := c8_sequence_elementwise_encoding.2 "a" [.PInt 1, .PInt 2]
    [{ tag := "a", attrs := [("datatype", "int"), ("list_member", "True"), ("index", "0")],
       text := some "1", children := [] },
     { tag := "a", attrs := [("datatype", "int"), ("list_member", "True"), ("index", "1")],
       text := some "2", children := [] }] rfl
  refine ⟨h.1, h.2 1 ?_⟩
  intro j hj
  match j with
  | 0 =>
    exact ⟨[{ tag := "a", attrs := [("datatype", "int"), ("list_member", "False")],
              text := some "1", children := [] }], rfl, rfl⟩
  | 1 =>
    exact ⟨[{ tag := "a", attrs := [("datatype", "int"), ("list_member", "False")],
              text := some "2", children := [] }], rfl, rfl⟩

/-- C9: the slotted branch rebinds its loop variable to each field's
value (source line 187), so the second declared slot is looked up on the
first field's value instead of the original object: encoding a slotted
object with slots `a=1, b=2` raises `AttributeError` for `b` on the `int`
value `1` rather than producing the two declared fields' encodings. -/
theorem c9_slotted_rebinding_raises_attribute_error :
    build_element "p" (.PSlotted "Point" [("a", .PInt 1), ("b", .PInt 2)])
      = .error (.attributeError "int" "b") := rfl

/-- C10: the encoder's dispatch is exhaustive before its final error
branch — every value is basic, a Mapping, a container, `__dict__`-bearing
or slotted — and consequently `_build_element` never produces the
unsupported-type ConversionError, for any key and value. -/
theorem c10_dispatch_exhaustive_error_unreachable :
    (∀ value : PyVal,
       (pyIsBasicValue value || isMappingInstance value || pyIsContainer value
         || hasDunderDict value || hasSlots value) = true) ∧
    (∀ (key : String) (value : PyVal), notConversionError (build_element key value) = true) := by
  constructor
  · intro value
    cases value <;> rfl
  · intro key value
    exact encAux_notConv (4 * pyWeight value + 1) (.one key value)
      (by simp only [taskWeight]; omega)
